import Mathlib

/-! Shallow embedding of packages/html-reporter/src/links.tsx.

FragmentParameters (the browser URLSearchParams built over the location
fragment) is modelled as an ordered list of key-value pairs of strings,
following the WHATWG application/x-www-form-urlencoded parser and
serializer that URLSearchParams implements.  Percent decoding is modelled
at byte level (each decoded byte becomes the code point of an output
character); the claims only exercise ASCII inputs, where this agrees with
the browser. -/

namespace Links

abbrev Params := List (String × String)

/-- Numeric value of a hex digit, as in the WHATWG percent-decode algorithm. -/
def hexDigitVal (c : Char) : Option Nat :=
  if 48 ≤ c.toNat ∧ c.toNat ≤ 57 then some (c.toNat - 48)
  else if 65 ≤ c.toNat ∧ c.toNat ≤ 70 then some (c.toNat - 55)
  else if 97 ≤ c.toNat ∧ c.toNat ≤ 102 then some (c.toNat - 87)
  else none

/-- WHATWG urlencoded decoding of one name-or-value sequence: a plus sign
becomes a space, a percent sign followed by two hex digits becomes the
denoted byte, and a malformed escape is passed through verbatim. -/
def percentDecodeChars : List Char → List Char
  | [] => []
  | '%' :: c1 :: c2 :: rest2 =>
    match hexDigitVal c1, hexDigitVal c2 with
    | some hi, some lo => Char.ofNat (16 * hi + lo) :: percentDecodeChars rest2
    | _, _ => '%' :: percentDecodeChars (c1 :: c2 :: rest2)
  | c :: rest => (if c == '+' then ' ' else c) :: percentDecodeChars rest
termination_by l => l.length
decreasing_by all_goals (simp <;> omega)

/-- Split a character list at every occurrence of the separator; always
returns at least one (possibly empty) segment, like String.prototype.split. -/
def splitOnChar (sep : Char) : List Char → List (List Char)
  | [] => [[]]
  | c :: rest =>
    match splitOnChar sep rest with
    | [] => [[c]]
    | cur :: more => if c == sep then [] :: cur :: more else (c :: cur) :: more

/-- Split a segment at its first equals sign: the name, and the value when
an equals sign is present. -/
def splitFirstEq : List Char → List Char × Option (List Char)
  | [] => ([], Option.none)
  | c :: rest =>
    if c == '=' then ([], some rest)
    else
      let r := splitFirstEq rest
      (c :: r.1, r.2)

/-- WHATWG urlencoded parsing of one ampersand-separated segment: an empty
segment is skipped; a segment without an equals sign is a name with empty
value. -/
def segmentToPair : List Char → Option (List Char × List Char)
  | [] => Option.none
  | c :: rest =>
    let r := splitFirstEq (c :: rest)
    some (r.1, r.2.getD [])

/-- The URLSearchParams constructor drops one leading question mark. -/
def stripLeadQ : List Char → List Char
  | '?' :: rest => rest
  | l => l

/-- Decoding step applied to a split-out name-value pair of characters. -/
def decodePair (p : List Char × List Char) : String × String :=
  (String.mk (percentDecodeChars p.1), String.mk (percentDecodeChars p.2))

/-- The parse performed by new URLSearchParams(fragmentText): drop one
leading question mark if present, split on the ampersand, keep non-empty
segments, split each at the first equals sign, percent-decode names and
values. -/
def parseParams (s : String) : Params :=
  ((splitOnChar '&' (stripLeadQ s.data)).filterMap segmentToPair).map decodePair

/-- Characters the urlencoded serializer leaves unescaped. -/
def isPlainChar (c : Char) : Bool :=
  c.isAlphanum || c == '*' || c == '-' || c == '.' || c == '_'

/-- Uppercase hex digit for a value below sixteen. -/
def hexUpperDigit (n : Nat) : Char :=
  if n < 10 then Char.ofNat (48 + n) else Char.ofNat (55 + n)

/-- UTF-8 bytes of a code point. -/
def utf8Bytes (n : Nat) : List Nat :=
  if n < 128 then [n]
  else if n < 2048 then [192 + n / 64, 128 + n % 64]
  else if n < 65536 then [224 + n / 4096, 128 + (n / 64) % 64, 128 + n % 64]
  else [240 + n / 262144, 128 + (n / 4096) % 64, 128 + (n / 64) % 64, 128 + n % 64]

/-- Percent escape of one byte. -/
def percentByte (b : Nat) : List Char :=
  ['%', hexUpperDigit (b / 16), hexUpperDigit (b % 16)]

/-- WHATWG urlencoded serialization of one character: unreserved characters
pass through, a space becomes a plus sign, everything else is
percent-escaped bytewise. -/
def encodeChar (c : Char) : List Char :=
  if isPlainChar c then [c]
  else if c == ' ' then ['+']
  else (utf8Bytes c.toNat).foldr (fun b acc => percentByte b ++ acc) []

def encodeChars : List Char → List Char
  | [] => []
  | c :: rest => encodeChar c ++ encodeChars rest

/-- Join segments with a separator character. -/
def intercalateChar (sep : Char) : List (List Char) → List Char
  | [] => []
  | [l] => l
  | l :: l2 :: ls => l ++ sep :: intercalateChar sep (l2 :: ls)

/-- One serialized pair, as the character segment between ampersands:
the encoded name, an equals sign, the encoded value. -/
def segOf (p : String × String) : List Char :=
  encodeChars p.1.data ++ '=' :: encodeChars p.2.data

/-- The serialization performed by URLSearchParams.prototype.toString:
encode each name and value, join them with an equals sign, join the pairs
with ampersands. -/
def serializeParams (ps : Params) : String :=
  String.mk (intercalateChar '&' (ps.map segOf))

/-- URLSearchParams.prototype.get: the value of the first pair with the
given name, or null. -/
def getParam (ps : Params) (k : String) : Option String :=
  (ps.find? (fun p => p.1 == k)).map (fun p => p.2)

/-- URLSearchParams.prototype.has. -/
def containsKey (k : String) (ps : Params) : Bool :=
  ps.any (fun p => p.1 == k)

/-- Drop every pair with the given name. -/
def removeKey (k : String) : Params → Params
  | [] => []
  | p :: rest => if p.1 == k then removeKey k rest else p :: removeKey k rest

/-- URLSearchParams.prototype.set: replace the value of the first pair with
the given name and remove the others, or append a new pair. -/
def setParam : Params → String → String → Params
  | [], k, v => [(k, v)]
  | p :: rest, k, v =>
    if p.1 == k then (k, v) :: removeKey k rest else p :: setParam rest k v

/-- The AnchorID union type of links.tsx, as a tagged variant:
string | string[] | ((id: string) => boolean) | undefined. -/
inductive AnchorID where
  | undef : AnchorID
  | str : String → AnchorID
  | strs : List String → AnchorID
  | pred : (String → Bool) → AnchorID

/-- useIsAnchored: read the anchor value from the current search parameters
and dispatch on the shape of the AnchorID, exactly in the order of the
source: a null anchor yields false before the id is even inspected, then
undefined yields false, a string is compared for equality, an array is
tested for membership, and a function is applied to the anchor value. -/
def useIsAnchored (searchParams : Params) (id : AnchorID) : Bool :=
  match getParam searchParams "anchor" with
  | Option.none => false
  | some anchor =>
    match id with
    | AnchorID.undef => false
    | AnchorID.str s => s == anchor
    | AnchorID.strs l => l.contains anchor
    | AnchorID.pred f => f anchor

/-! The React model for useAnchor.  A subscriber sees a sequence of renders;
each render carries the current parameter snapshot.  SearchParamsProvider
creates a brand-new URLSearchParams object on every popstate, so two
snapshots from different navigations are never identical as objects even
when they hold equal pairs; the `ident` field models object identity.
useAnchor registers an effect whose dependency list is
[isAnchored, onReveal, searchParams]; React re-runs the effect body exactly
when the dependency tuple differs (componentwise object identity) from the
previous render's, and the body invokes onReveal precisely when isAnchored
is true.  The subscriber's callback is fixed (useCallback), so the onReveal
component of the dependencies never changes and is omitted. -/

structure Snap where
  ident : Nat
  params : Params

/-- The effect dependencies of useAnchor at one render: the isAnchored
boolean and the identity of the parameter snapshot. -/
def depsOf (id : AnchorID) (s : Snap) : Bool × Nat :=
  (useIsAnchored s.params id, s.ident)

/-- Number of onReveal invocations over the remaining renders, given the
dependency tuple of the previous render (none before the first render). -/
def revealCountAux (id : AnchorID) : Option (Bool × Nat) → List Snap → Nat
  | _, [] => 0
  | prev, s :: rest =>
    let d := depsOf id s
    (if prev ≠ some d ∧ d.1 = true then 1 else 0) + revealCountAux id (some d) rest

/-- Total number of onReveal invocations over a render sequence. -/
def revealCount (id : AnchorID) (trace : List Snap) : Nat :=
  revealCountAux id Option.none trace

/-! The navigation host.  window.location.hash is the part of the location
from the first hash mark; hash.slice(1) drops that mark. -/

def afterMarkChars (mark : Char) : List Char → List Char
  | [] => []
  | c :: rest => if c == mark then rest else afterMarkChars mark rest

/-- window.location.hash.slice(1): everything after the first hash mark,
or the empty string when there is none. -/
def afterHash (s : String) : String :=
  String.mk (afterMarkChars '#' s.data)

structure Host where
  history : List String
  location : String
  subscriberParams : Params

/-- window.history.pushState: append a history entry and move the location,
without notifying popstate listeners. -/
def pushState (h : Host) (target : String) : Host :=
  { h with history := h.history ++ [target], location := target }

/-- window.dispatchEvent(new PopStateEvent): the SearchParamsProvider
listener re-parses the current location fragment into a fresh snapshot. -/
def dispatchPopstate (h : Host) : Host :=
  { h with subscriberParams := parseParams (afterHash h.location) }

/-- navigate: push a history entry, then synthesize a popstate event so
listeners observe the change. -/
def navigate (h : Host) (target : String) : Host :=
  dispatchPopstate (pushState h target)

/-! The link builders. -/

/-- A test result, identified by its object identity (reference equality),
which is what Array.prototype.indexOf compares with. -/
structure TestResult where
  ident : Nat

structure TestCase where
  testId : String
  results : List TestResult

def jsIndexOfAux (r : TestResult) : List TestResult → Nat → Int
  | [], _ => -1
  | x :: rest, i => if x.ident == r.ident then (i : Int) else jsIndexOfAux r rest (i + 1)

/-- Array.prototype.indexOf under reference comparison: the position of the
first occurrence, or minus one when absent. -/
def jsIndexOf (l : List TestResult) (r : TestResult) : Int :=
  jsIndexOfAux r l 0

structure HrefArgs where
  test : Option TestCase
  result : Option TestResult
  anchor : Option String
  filter : Option Params

/-- First statement of testResultHref: if (test) params.set('testId', ...). -/
def addTestId (a : HrefArgs) (ps : Params) : Params :=
  match a.test with
  | some t => setParam ps "testId" t.testId
  | Option.none => ps

/-- Second statement: if (test && result) params.set('run', '' + indexOf). -/
def addRun (a : HrefArgs) (ps : Params) : Params :=
  match a.test, a.result with
  | some t, some r => setParam ps "run" (toString (jsIndexOf t.results r))
  | _, _ => ps

/-- Third statement: if (anchor) params.set('anchor', anchor).  JavaScript
truthiness makes an empty string falsy, so an empty anchor is skipped. -/
def addAnchor (a : HrefArgs) (ps : Params) : Params :=
  match a.anchor with
  | some an => if an ≠ "" then setParam ps "anchor" an else ps
  | Option.none => ps

/-- Fourth statement: if (filter?.get('q')) params.set('q', ...), likewise
guarded by truthiness, so a missing filter, a missing q and an empty q are
all skipped. -/
def addQ (a : HrefArgs) (ps : Params) : Params :=
  match a.filter with
  | some f =>
    match getParam f "q" with
    | some q => if q ≠ "" then setParam ps "q" q else ps
    | Option.none => ps
  | Option.none => ps

/-- The URLSearchParams accumulated by testResultHref: the four guarded
set statements applied in order to an initially empty parameter list. -/
def testResultHrefParams (a : HrefArgs) : Params :=
  addQ a (addAnchor a (addRun a (addTestId a [])))

/-- testResultHref: the hash-question prefix followed by the serialized
parameters. -/
def testResultHref (a : HrefArgs) : String :=
  "#?" ++ serializeParams (testResultHrefParams a)

structure Attachment where
  path : String

/-- generateTraceUrl.  The resolve argument stands for the browser URL
constructor new URL(path, window.location.href), an injected capability of
the host: it maps an attachment path to its absolute form against the
current page location. -/
def generateTraceUrl (resolve : String → String) (traces : List Attachment) : String :=
  "trace/index.html?" ++
    String.mk (intercalateChar '&'
      (traces.map (fun a => ("trace=" ++ resolve a.path).data)))

/-- Everything after the first question mark: the query part of a URL whose
path holds no question mark. -/
def afterQuery (s : String) : List Char :=
  afterMarkChars '?' s.data

/-! Helper lemmas about the codec. -/

theorem isPlainChar_not_percent {c : Char} (h : isPlainChar c = true) : (c == '%') = false := by
  cases hb : (c == '%') with
  | false => rfl
  | true =>
    rw [show c = '%' from eq_of_beq hb] at h
    exact absurd h (by decide)

theorem isPlainChar_not_plus {c : Char} (h : isPlainChar c = true) : (c == '+') = false := by
  cases hb : (c == '+') with
  | false => rfl
  | true =>
    rw [show c = '+' from eq_of_beq hb] at h
    exact absurd h (by decide)

theorem isPlainChar_ne_amp {c : Char} (h : isPlainChar c = true) : c ≠ '&' := by
  intro e
  rw [e] at h
  exact absurd h (by decide)

theorem isPlainChar_ne_eqsign {c : Char} (h : isPlainChar c = true) : c ≠ '=' := by
  intro e
  rw [e] at h
  exact absurd h (by decide)

theorem percentDecodeChars_cons_of_ne (c : Char) (rest : List Char) (hp : c ≠ '%') :
    percentDecodeChars (c :: rest) = (if c == '+' then ' ' else c) :: percentDecodeChars rest := by
  match rest with
  | [] => simp [percentDecodeChars]
  | [c1] => simp [percentDecodeChars]
  | c1 :: c2 :: rest2 =>
    rw [percentDecodeChars]
    intro c1h c2h resth hc _
    exact hp hc

theorem percentDecodeChars_plain (l : List Char) (h : ∀ c ∈ l, isPlainChar c = true) :
    percentDecodeChars l = l := by
  induction l with
  | nil => simp [percentDecodeChars]
  | cons c rest ih =>
    have hc : isPlainChar c = true := h c (by simp)
    rw [percentDecodeChars_cons_of_ne c rest (fun e => by
      have := isPlainChar_not_percent hc
      rw [e] at this
      simp at this)]
    rw [isPlainChar_not_plus hc]
    rw [ih (fun x hx => h x (by simp [hx]))]
    simp

theorem encodeChar_plain {c : Char} (h : isPlainChar c = true) : encodeChar c = [c] := by
  simp [encodeChar, h]

theorem encodeChars_plain (l : List Char) (h : ∀ c ∈ l, isPlainChar c = true) :
    encodeChars l = l := by
  induction l with
  | nil => rfl
  | cons c rest ih =>
    rw [encodeChars, encodeChar_plain (h c (by simp)), ih (fun x hx => h x (by simp [hx]))]
    rfl

theorem splitOnChar_ne_nil (sep : Char) (l : List Char) : splitOnChar sep l ≠ [] := by
  induction l with
  | nil => simp [splitOnChar]
  | cons c rest ih =>
    cases hsp : splitOnChar sep rest with
    | nil => exact absurd hsp ih
    | cons cur more =>
      cases hb : (c == sep) <;> simp [splitOnChar, hsp, hb]

theorem splitOnChar_no_sep (sep : Char) (l : List Char) (h : sep ∉ l) :
    splitOnChar sep l = [l] := by
  induction l with
  | nil => rfl
  | cons c rest ih =>
    have hc : (c == sep) = false := by
      have : c ≠ sep := fun e => h (e ▸ List.mem_cons_self c rest)
      simp [this]
    rw [splitOnChar, ih (fun hx => h (List.mem_cons_of_mem _ hx)), hc]
    simp

theorem splitOnChar_append (sep : Char) (l rest : List Char) (h : sep ∉ l) :
    splitOnChar sep (l ++ sep :: rest) = l :: splitOnChar sep rest := by
  induction l with
  | nil =>
    cases hsp : splitOnChar sep rest with
    | nil => exact absurd hsp (splitOnChar_ne_nil sep rest)
    | cons cur more =>
      rw [List.nil_append, splitOnChar, hsp]
      simp [hsp]
  | cons c l2 ih =>
    have hc : (c == sep) = false := by
      have : c ≠ sep := fun e => h (e ▸ List.mem_cons_self c l2)
      simp [this]
    rw [List.cons_append, splitOnChar, ih (fun hx => h (List.mem_cons_of_mem _ hx)), hc]
    simp

theorem splitOnChar_intercalate (sep : Char) (ls : List (List Char)) (hne : ls ≠ [])
    (h : ∀ l ∈ ls, sep ∉ l) :
    splitOnChar sep (intercalateChar sep ls) = ls := by
  induction ls with
  | nil => exact absurd rfl hne
  | cons l ls2 ih =>
    cases ls2 with
    | nil => simp [intercalateChar, splitOnChar_no_sep sep l (h l (by simp))]
    | cons l2 ls3 =>
      rw [intercalateChar, splitOnChar_append sep l _ (h l (by simp))]
      rw [ih (by simp) (fun x hx => h x (by simp [hx]))]

theorem splitFirstEq_append (k v : List Char) (h : '=' ∉ k) :
    splitFirstEq (k ++ '=' :: v) = (k, some v) := by
  induction k with
  | nil => simp [splitFirstEq]
  | cons c k2 ih =>
    have hc : (c == '=') = false := by
      have : c ≠ '=' := fun e => h (e ▸ List.mem_cons_self c k2)
      simp [this]
    rw [List.cons_append, splitFirstEq]
    simp [hc, ih (fun hx => h (List.mem_cons_of_mem _ hx))]

theorem segmentToPair_pair (k v : List Char) (h : '=' ∉ k) :
    segmentToPair (k ++ '=' :: v) = some (k, v) := by
  have hs := splitFirstEq_append k v h
  cases k with
  | nil =>
    rw [List.nil_append] at hs ⊢
    simp [segmentToPair, hs]
  | cons c k2 =>
    rw [List.cons_append] at hs ⊢
    simp [segmentToPair, hs]

/-- A string all of whose characters the urlencoded serializer leaves
untouched: ASCII letters, digits, asterisk, hyphen, period, underscore.
This is the "ASCII without reserved characters" of the round-trip claim. -/
def PlainStr (s : String) : Prop := ∀ c ∈ s.data, isPlainChar c = true

instance decPlainStr (s : String) : Decidable (PlainStr s) :=
  inferInstanceAs (Decidable (∀ c ∈ s.data, isPlainChar c = true))

theorem segOf_plain {p : String × String} (h1 : PlainStr p.1) (h2 : PlainStr p.2) :
    segOf p = p.1.data ++ '=' :: p.2.data := by
  rw [segOf, encodeChars_plain _ h1, encodeChars_plain _ h2]

theorem amp_not_mem_segOf {p : String × String} (h1 : PlainStr p.1) (h2 : PlainStr p.2) :
    '&' ∉ segOf p := by
  rw [segOf_plain h1 h2]
  intro hmem
  rcases List.mem_append.mp hmem with hk | hv
  · exact isPlainChar_ne_amp (h1 _ hk) rfl
  · rcases List.mem_cons.mp hv with he | hv2
    · exact absurd he.symm (by decide)
    · exact isPlainChar_ne_amp (h2 _ hv2) rfl

theorem decodePair_segparts {p : String × String} (h1 : PlainStr p.1) (h2 : PlainStr p.2) :
    decodePair (p.1.data, p.2.data) = p := by
  rw [decodePair]
  show (String.mk (percentDecodeChars p.1.data), String.mk (percentDecodeChars p.2.data)) = p
  rw [percentDecodeChars_plain _ h1, percentDecodeChars_plain _ h2]

theorem segmentToPair_segOf {p : String × String} (h1 : PlainStr p.1) (h2 : PlainStr p.2) :
    segmentToPair (segOf p) = some (p.1.data, p.2.data) := by
  rw [segOf_plain h1 h2]
  exact segmentToPair_pair _ _ (fun hx => isPlainChar_ne_eqsign (h1 _ hx) rfl)

theorem isPlainChar_ne_qmark {c : Char} (h : isPlainChar c = true) : c ≠ '?' := by
  intro e
  rw [e] at h
  exact absurd h (by decide)

theorem stripLeadQ_of_ne {l : List Char} (h : ∀ rest, l ≠ '?' :: rest) : stripLeadQ l = l := by
  match l with
  | [] => rfl
  | c :: rest =>
    by_cases hc : c = '?'
    · exact absurd (hc ▸ rfl) (h rest)
    · rw [stripLeadQ]
      intro rest2 heq
      exact hc (List.cons.injEq .. ▸ heq).1

theorem stripLeadQ_segs {P : Params} (h : ∀ p ∈ P, PlainStr p.1 ∧ PlainStr p.2) :
    stripLeadQ (intercalateChar '&' (P.map segOf)) = intercalateChar '&' (P.map segOf) := by
  cases P with
  | nil => rfl
  | cons p ps =>
    apply stripLeadQ_of_ne
    intro rest heq
    have hseg : segOf p = p.1.data ++ '=' :: p.2.data :=
      segOf_plain (h p (by simp)).1 (h p (by simp)).2
    have hhead : intercalateChar '&' ((p :: ps).map segOf) =
        segOf p ++ (match ps.map segOf with
          | [] => []
          | l2 :: ls => '&' :: intercalateChar '&' (l2 :: ls)) := by
      cases ps <;> simp [intercalateChar]
    rw [hhead, hseg] at heq
    cases hk : p.1.data with
    | nil =>
      rw [hk] at heq
      simp at heq
    | cons c k2 =>
      rw [hk] at heq
      have : c = '?' := (List.cons.injEq .. ▸ heq).1
      exact isPlainChar_ne_qmark ((h p (by simp)).1 c (by rw [hk]; simp)) this

theorem parse_serialize_aux (P : Params) (h : ∀ p ∈ P, PlainStr p.1 ∧ PlainStr p.2) :
    ((splitOnChar '&' (intercalateChar '&' (P.map segOf))).filterMap segmentToPair).map
      decodePair = P := by
  induction P with
  | nil => simp [intercalateChar, splitOnChar, segmentToPair]
  | cons p ps ih =>
    have hp1 := (h p (by simp)).1
    have hp2 := (h p (by simp)).2
    cases ps with
    | nil =>
      rw [show (([p] : Params).map segOf) = [segOf p] from rfl, intercalateChar,
        splitOnChar_no_sep '&' (segOf p) (amp_not_mem_segOf hp1 hp2)]
      simp [segmentToPair_segOf hp1 hp2, decodePair_segparts hp1 hp2]
    | cons p2 ps2 =>
      have hrest : ∀ q ∈ (p2 :: ps2 : Params), PlainStr q.1 ∧ PlainStr q.2 :=
        fun q hq => h q (by simp [hq])
      rw [show ((p :: p2 :: ps2 : Params).map segOf) =
          segOf p :: (p2 :: ps2 : Params).map segOf from rfl]
      rw [show intercalateChar '&' (segOf p :: (p2 :: ps2 : Params).map segOf) =
          segOf p ++ '&' :: intercalateChar '&' ((p2 :: ps2 : Params).map segOf) by
        simp [intercalateChar]]
      rw [splitOnChar_append '&' (segOf p) _ (amp_not_mem_segOf hp1 hp2)]
      rw [List.filterMap_cons, segmentToPair_segOf hp1 hp2]
      rw [List.map_cons, decodePair_segparts hp1 hp2, ih hrest]

/-- C2: useIsAnchored returns false for every AnchorID when the anchor key
is absent from the parameters; when the anchor value v is present it
returns false for an undefined id, exact string equality with v for a
string id, membership of v for an array id, and the predicate applied to v
for a function id. -/
theorem useIsAnchored_matching (ps : Params) :
    (getParam ps "anchor" = Option.none → ∀ id, useIsAnchored ps id = false) ∧
    (∀ v, getParam ps "anchor" = some v →
      useIsAnchored ps AnchorID.undef = false ∧
      (∀ s, useIsAnchored ps (AnchorID.str s) = (s == v)) ∧
      (∀ l, useIsAnchored ps (AnchorID.strs l) = l.contains v) ∧
      (∀ f, useIsAnchored ps (AnchorID.pred f) = f v)) := by
  constructor
  · intro hn id
    cases id <;> simp [useIsAnchored, hn]
  · intro v hv
    refine ⟨?_, ?_, ?_, ?_⟩ <;> simp [useIsAnchored, hv]

theorem useIsAnchored_matching_witness :
    useIsAnchored [("anchor", "a")] (AnchorID.str "a") = true := by
  have h := ((useIsAnchored_matching [("anchor", "a")]).2 "a" rfl).2.1 "a"
  simpa using h

/-- C10: a predicate-shaped AnchorID is never consulted when the anchor key
is absent (the result is false for every predicate, so the predicate cannot
be called with a missing anchor); when the anchor value v is present the
predicate is applied exactly to that string value. -/
theorem useIsAnchored_pred_guarded (ps : Params) :
    (getParam ps "anchor" = Option.none →
      ∀ f : String → Bool, useIsAnchored ps (AnchorID.pred f) = false) ∧
    (∀ (v : String) (f : String → Bool), getParam ps "anchor" = some v →
      useIsAnchored ps (AnchorID.pred f) = f v) := by
  constructor
  · intro hn f
    simp [useIsAnchored, hn]
  · intro v f hv
    simp [useIsAnchored, hv]

theorem useIsAnchored_pred_guarded_witness :
    useIsAnchored [] (AnchorID.pred (fun _ => true)) = false :=
  (useIsAnchored_pred_guarded []).1 rfl (fun _ => true)

/-- C7: navigate appends a new history entry holding the target, moves the
location there, and synthesizes a popstate so that the subscriber snapshot
becomes the fresh reparse of the new fragment; the history push alone would
leave the subscriber snapshot untouched. -/
theorem navigate_pushes_and_notifies (h : Host) (target : String) :
    (navigate h target).history = h.history ++ [target] ∧
    (navigate h target).location = target ∧
    (navigate h target).subscriberParams = parseParams (afterHash target) ∧
    (pushState h target).subscriberParams = h.subscriberParams :=
  ⟨rfl, rfl, rfl, rfl⟩

/-- C9: for parameters whose keys and values consist of unreserved ASCII
characters, parsing the serialized form reconstructs exactly the same
ordered list of pairs, duplicate keys and values included. -/
theorem parseParams_serializeParams_roundtrip (P : Params)
    (h : ∀ p ∈ P, PlainStr p.1 ∧ PlainStr p.2) :
    parseParams (serializeParams P) = P := by
  rw [parseParams, serializeParams]
  show ((splitOnChar '&'
    (stripLeadQ (intercalateChar '&' (P.map segOf)))).filterMap segmentToPair).map
      decodePair = P
  rw [stripLeadQ_segs h]
  exact parse_serialize_aux P h

theorem parseParams_serializeParams_roundtrip_witness :
    parseParams (serializeParams [("a", "b"), ("a", "c"), ("q", "x1")]) =
      [("a", "b"), ("a", "c"), ("q", "x1")] :=
  parseParams_serializeParams_roundtrip [("a", "b"), ("a", "c"), ("q", "x1")] (by decide)

theorem percentDecodeChars_nil : percentDecodeChars [] = [] := by
  simp [percentDecodeChars]

theorem percentDecodeChars_invalid (c1 c2 : Char) (rest : List Char)
    (h : hexDigitVal c1 = Option.none ∨ hexDigitVal c2 = Option.none) :
    percentDecodeChars ('%' :: c1 :: c2 :: rest) = '%' :: percentDecodeChars (c1 :: c2 :: rest) := by
  rw [percentDecodeChars]
  rcases h with h | h
  · simp [h]
  · cases h1 : hexDigitVal c1 <;> simp [h, h1]

/-- C8 counterexample: the malformed fragment with an invalid percent
escape parses to a NON-empty parameter set (the escape is kept verbatim),
contradicting the clause that malformed fragments yield an empty set. -/
theorem parseParams_malformed_not_empty :
    parseParams "%ZZ=1" = [("%ZZ", "1")] ∧ parseParams "%ZZ=1" ≠ [] := by
  have hsplit : (splitOnChar '&' (stripLeadQ ("%ZZ=1".data))).filterMap segmentToPair
      = [(['%', 'Z', 'Z'], ['1'])] := by decide
  have hname : percentDecodeChars ['%', 'Z', 'Z'] = ['%', 'Z', 'Z'] := by
    rw [show (['%', 'Z', 'Z'] : List Char) = '%' :: 'Z' :: 'Z' :: ([] : List Char) from rfl]
    rw [percentDecodeChars_invalid 'Z' 'Z' [] (Or.inl (by decide))]
    rw [percentDecodeChars_cons_of_ne 'Z' _ (by decide)]
    rw [percentDecodeChars_cons_of_ne 'Z' _ (by decide)]
    rw [percentDecodeChars_nil]
    decide
  have hval : percentDecodeChars ['1'] = ['1'] := percentDecodeChars_plain _ (by decide)
  have heq : parseParams "%ZZ=1" = [("%ZZ", "1")] := by
    simp only [parseParams, hsplit, List.map_cons, List.map_nil, decodePair, hname, hval]
  exact ⟨heq, by rw [heq]; simp⟩

/-- C8 amended: parsing is total — every input string, however malformed,
yields some parameter set without an error (the result has at most one
pair per ampersand-separated segment); the empty fragment yields the empty
set, while a malformed fragment yields a best-effort, possibly non-empty,
parse with invalid escapes kept verbatim. -/
theorem parseParams_total :
    parseParams "" = [] ∧
    ∀ s : String, (parseParams s).length ≤ (splitOnChar '&' (stripLeadQ s.data)).length := by
  constructor
  · rfl
  · intro s
    rw [parseParams, List.length_map]
    exact List.length_filterMap_le _ _

/-- C1 counterexample: a subscriber with the fixed AnchorID row-3 whose
parameters go absent → row-3 → row-3 with an unrelated change sees the
reveal callback invoked twice, not once: useAnchor lists the parameter
snapshot among the effect dependencies and every navigation produces a
fresh snapshot object, so the effect re-runs while still anchored. -/
theorem useAnchor_refires_counterexample :
    revealCount (AnchorID.str "row-3")
      [⟨0, [("q", "foo")]⟩, ⟨1, [("q", "foo"), ("anchor", "row-3")]⟩,
        ⟨2, [("q", "bar"), ("anchor", "row-3")]⟩] = 2 := by
  decide

/-- C1 amended: over renders not-anchored, anchored, anchored, the reveal
callback fires exactly once for the transition into anchored when the
third render reuses the same parameter snapshot object, but fires a second
time when the third render carries a fresh snapshot (as after any
navigation, related or not), because the snapshot is in the effect
dependency list. -/
theorem useAnchor_fires (id : AnchorID) (s0 s1 s2 : Snap)
    (h0 : useIsAnchored s0.params id = false)
    (h1 : useIsAnchored s1.params id = true)
    (h2 : useIsAnchored s2.params id = true) :
    revealCount id [s0, s1, s2] = if s2.ident = s1.ident then 1 else 2 := by
  by_cases hi : s2.ident = s1.ident
  · simp [revealCount, revealCountAux, depsOf, h0, h1, h2, hi]
  · have hi2 : ¬(s1.ident = s2.ident) := fun e => hi e.symm
    simp [revealCount, revealCountAux, depsOf, h0, h1, h2, hi, hi2]

theorem useAnchor_fires_witness :
    revealCount (AnchorID.str "row-3")
      [⟨0, []⟩, ⟨1, [("anchor", "row-3")]⟩, ⟨2, [("anchor", "row-3"), ("q", "bar")]⟩] = 2 := by
  have h := useAnchor_fires (AnchorID.str "row-3") ⟨0, []⟩ ⟨1, [("anchor", "row-3")]⟩
    ⟨2, [("anchor", "row-3"), ("q", "bar")]⟩ (by decide) (by decide) (by decide)
  simpa using h

/-! Lemmas about getParam, containsKey, removeKey and setParam, used to
settle the testResultHref claims. -/

theorem getParam_cons (p : String × String) (ps : Params) (k : String) :
    getParam (p :: ps) k = if p.1 == k then some p.2 else getParam ps k := by
  cases hb : (p.1 == k) <;> simp [getParam, List.find?, hb]

theorem containsKey_cons (p : String × String) (ps : Params) (k : String) :
    containsKey k (p :: ps) = (p.1 == k || containsKey k ps) := by
  simp [containsKey]

theorem getParam_removeKey {k k' : String} (h : k' ≠ k) (ps : Params) :
    getParam (removeKey k ps) k' = getParam ps k' := by
  induction ps with
  | nil => rfl
  | cons p rest ih =>
    cases hb : (p.1 == k) with
    | true =>
      have hpk : p.1 = k := eq_of_beq hb
      have hpk2 : (p.1 == k') = false := by
        simp [hpk]
        exact fun e => h e.symm
      rw [removeKey]
      simp only [hb, if_true]
      rw [ih, getParam_cons, hpk2]
      simp
    | false =>
      rw [removeKey]
      simp only [hb, Bool.false_eq_true, if_false]
      rw [getParam_cons, getParam_cons, ih]

theorem containsKey_removeKey {k k' : String} (h : k' ≠ k) (ps : Params) :
    containsKey k' (removeKey k ps) = containsKey k' ps := by
  induction ps with
  | nil => rfl
  | cons p rest ih =>
    cases hb : (p.1 == k) with
    | true =>
      have hpk : p.1 = k := eq_of_beq hb
      have hpk2 : (p.1 == k') = false := by
        simp [hpk]
        exact fun e => h e.symm
      rw [removeKey]
      simp only [hb, if_true]
      rw [ih, containsKey_cons, hpk2]
      simp
    | false =>
      rw [removeKey]
      simp only [hb, Bool.false_eq_true, if_false]
      rw [containsKey_cons, containsKey_cons, ih]

theorem getParam_setParam_self (ps : Params) (k v : String) :
    getParam (setParam ps k v) k = some v := by
  induction ps with
  | nil =>
    rw [setParam, getParam_cons]
    simp
  | cons p rest ih =>
    cases hb : (p.1 == k) with
    | true =>
      rw [setParam]
      simp only [hb, if_true]
      rw [getParam_cons]
      simp
    | false =>
      rw [setParam]
      simp only [hb, Bool.false_eq_true, if_false]
      rw [getParam_cons, hb, ih]
      simp

theorem getParam_setParam_other {k k' : String} (h : k' ≠ k) (ps : Params) (v : String) :
    getParam (setParam ps k v) k' = getParam ps k' := by
  have hkk : (k == k') = false := by
    simp
    exact fun e => h e.symm
  induction ps with
  | nil =>
    rw [setParam, getParam_cons]
    simp [hkk, getParam]
  | cons p rest ih =>
    cases hb : (p.1 == k) with
    | true =>
      have hpk : p.1 = k := eq_of_beq hb
      have hpk2 : (p.1 == k') = false := by
        simp [hpk]
        exact fun e => h e.symm
      rw [setParam]
      simp only [hb, if_true]
      rw [getParam_cons, getParam_cons, hpk2, getParam_removeKey h]
      simp [hkk]
    | false =>
      rw [setParam]
      simp only [hb, Bool.false_eq_true, if_false]
      rw [getParam_cons, getParam_cons, ih]

theorem containsKey_setParam_self (ps : Params) (k v : String) :
    containsKey k (setParam ps k v) = true := by
  induction ps with
  | nil =>
    rw [setParam, containsKey_cons]
    simp
  | cons p rest ih =>
    cases hb : (p.1 == k) with
    | true =>
      rw [setParam]
      simp only [hb, if_true]
      rw [containsKey_cons]
      simp
    | false =>
      rw [setParam]
      simp only [hb, Bool.false_eq_true, if_false]
      rw [containsKey_cons, hb, ih]
      simp

theorem containsKey_setParam_other {k k' : String} (h : k' ≠ k) (ps : Params) (v : String) :
    containsKey k' (setParam ps k v) = containsKey k' ps := by
  have hkk : (k == k') = false := by
    simp
    exact fun e => h e.symm
  induction ps with
  | nil =>
    rw [setParam, containsKey_cons]
    simp [hkk, containsKey]
  | cons p rest ih =>
    cases hb : (p.1 == k) with
    | true =>
      have hpk : p.1 = k := eq_of_beq hb
      have hpk2 : (p.1 == k') = false := by
        simp [hpk]
        exact fun e => h e.symm
      rw [setParam]
      simp only [hb, if_true]
      rw [containsKey_cons, containsKey_cons, hpk2, containsKey_removeKey h]
      simp [hkk]
    | false =>
      rw [setParam]
      simp only [hb, Bool.false_eq_true, if_false]
      rw [containsKey_cons, containsKey_cons, ih]

/-! Lemmas pushing a key that a stage does not touch through that stage. -/

theorem addTestId_other (a : HrefArgs) (ps : Params) {k : String} (hk : k ≠ "testId") :
    containsKey k (addTestId a ps) = containsKey k ps ∧
    getParam (addTestId a ps) k = getParam ps k := by
  cases ht : a.test with
  | none => simp [addTestId, ht]
  | some t =>
    simp [addTestId, ht, containsKey_setParam_other hk ps t.testId,
      getParam_setParam_other hk ps t.testId]

theorem addRun_other (a : HrefArgs) (ps : Params) {k : String} (hk : k ≠ "run") :
    containsKey k (addRun a ps) = containsKey k ps ∧
    getParam (addRun a ps) k = getParam ps k := by
  cases ht : a.test with
  | none => cases hr : a.result <;> simp [addRun, ht, hr]
  | some t =>
    cases hr : a.result with
    | none => simp [addRun, ht, hr]
    | some r =>
      simp [addRun, ht, hr, containsKey_setParam_other hk ps, getParam_setParam_other hk ps]

theorem addAnchor_other (a : HrefArgs) (ps : Params) {k : String} (hk : k ≠ "anchor") :
    containsKey k (addAnchor a ps) = containsKey k ps ∧
    getParam (addAnchor a ps) k = getParam ps k := by
  cases han : a.anchor with
  | none => simp [addAnchor, han]
  | some an =>
    by_cases he : an = ""
    · simp [addAnchor, han, he]
    · simp [addAnchor, han, he, containsKey_setParam_other hk ps an,
        getParam_setParam_other hk ps an]

theorem addQ_other (a : HrefArgs) (ps : Params) {k : String} (hk : k ≠ "q") :
    containsKey k (addQ a ps) = containsKey k ps ∧
    getParam (addQ a ps) k = getParam ps k := by
  cases hf : a.filter with
  | none => simp [addQ, hf]
  | some f =>
    cases hq : getParam f "q" with
    | none => simp [addQ, hf, hq]
    | some q =>
      by_cases he : q = ""
      · simp [addQ, hf, hq, he]
      · simp [addQ, hf, hq, he, containsKey_setParam_other hk ps q,
          getParam_setParam_other hk ps q]

theorem jsIndexOfAux_neg (r : TestResult) (l : List TestResult) (i : Nat)
    (h : ∀ x ∈ l, x.ident ≠ r.ident) : jsIndexOfAux r l i = -1 := by
  induction l generalizing i with
  | nil => rfl
  | cons x rest ih =>
    have hb : (x.ident == r.ident) = false := by
      simp
      exact h x (by simp)
    rw [jsIndexOfAux]
    simp only [hb, Bool.false_eq_true, if_false]
    exact ih (i + 1) (fun y hy => h y (by simp [hy]))

/-- C3 counterexample: an anchor IS given, namely the empty string, yet the
output fragment contains no anchor parameter at all, because the source
guards the set call with JavaScript truthiness and an empty string is
falsy. -/
theorem testResultHref_empty_anchor_counterexample :
    testResultHref ⟨Option.none, Option.none, some "", Option.none⟩ = "#?" ∧
    containsKey "anchor"
      (testResultHrefParams ⟨Option.none, Option.none, some "", Option.none⟩) = false :=
  ⟨by decide, by decide⟩

/-- C3 amended: the fragment contains testId exactly when a test is given,
contains run exactly when both a test and a result are given (carrying the
reference-comparison index of the result within the results of the test),
and contains anchor exactly when a NON-EMPTY anchor is given; omitted
fields leave no placeholder.  For a test with testId T1 and two results,
linking the second result yields the worked example fragment. -/
theorem testResultHref_fields :
    (∀ a : HrefArgs,
      containsKey "testId" (testResultHrefParams a) = a.test.isSome ∧
      containsKey "run" (testResultHrefParams a) = (a.test.isSome && a.result.isSome) ∧
      (containsKey "anchor" (testResultHrefParams a) = true ↔
        ∃ an, a.anchor = some an ∧ an ≠ "") ∧
      (∀ t r, a.test = some t → a.result = some r →
        getParam (testResultHrefParams a) "run" = some (toString (jsIndexOf t.results r)))) ∧
    testResultHref ⟨some ⟨"T1", [⟨0⟩, ⟨1⟩]⟩, some ⟨1⟩, Option.none, Option.none⟩ =
      "#?testId=T1&run=1" := by
  constructor
  · intro a
    refine ⟨?_, ?_, ?_, ?_⟩
    · rw [testResultHrefParams, (addQ_other a _ (by decide)).1,
        (addAnchor_other a _ (by decide)).1, (addRun_other a _ (by decide)).1]
      cases ht : a.test with
      | none => simp [addTestId, ht, containsKey]
      | some t => simp [addTestId, ht, containsKey_setParam_self]
    · rw [testResultHrefParams, (addQ_other a _ (by decide)).1,
        (addAnchor_other a _ (by decide)).1]
      cases ht : a.test with
      | none => cases hr : a.result <;> simp [addRun, addTestId, ht, hr, containsKey]
      | some t =>
        cases hr : a.result with
        | none =>
          rw [show addRun a (addTestId a []) = addTestId a [] by simp [addRun, ht, hr]]
          rw [show addTestId a [] = setParam [] "testId" t.testId by simp [addTestId, ht]]
          rw [containsKey_setParam_other (show ("run" : String) ≠ "testId" by decide)]
          simp [containsKey, ht, hr]
        | some r => simp [addRun, ht, hr, containsKey_setParam_self]
    · rw [testResultHrefParams, (addQ_other a _ (by decide)).1]
      cases han : a.anchor with
      | none =>
        rw [show addAnchor a (addRun a (addTestId a [])) = addRun a (addTestId a []) by
          simp [addAnchor, han]]
        rw [(addRun_other a _ (by decide)).1, (addTestId_other a _ (by decide)).1]
        simp [containsKey, han]
      | some an =>
        by_cases he : an = ""
        · rw [show addAnchor a (addRun a (addTestId a [])) = addRun a (addTestId a []) by
            simp [addAnchor, han, he]]
          rw [(addRun_other a _ (by decide)).1, (addTestId_other a _ (by decide)).1]
          simp [containsKey, han, he]
        · simp [addAnchor, han, he, containsKey_setParam_self]
    · intro t r ht hr
      rw [testResultHrefParams, (addQ_other a _ (by decide)).2,
        (addAnchor_other a _ (by decide)).2]
      simp [addRun, ht, hr, getParam_setParam_self]
  · decide

theorem testResultHref_fields_witness :
    getParam (testResultHrefParams
      ⟨some ⟨"T0", [⟨3⟩, ⟨7⟩]⟩, some ⟨7⟩, Option.none, Option.none⟩) "run" = some "1" := by
  rw [(testResultHref_fields.1
    ⟨some ⟨"T0", [⟨3⟩, ⟨7⟩]⟩, some ⟨7⟩, Option.none, Option.none⟩).2.2.2
    ⟨"T0", [⟨3⟩, ⟨7⟩]⟩ ⟨7⟩ rfl rfl]
  decide

/-- C5: the output includes the q parameter, carrying exactly the filter's
q value, precisely when a filter is given whose first q value is a
non-empty string; a missing filter, a missing q and an empty q all leave q
out of the output entirely. -/
theorem testResultHref_q_carry (a : HrefArgs) :
    (∀ f q, a.filter = some f → getParam f "q" = some q → q ≠ "" →
      getParam (testResultHrefParams a) "q" = some q) ∧
    (containsKey "q" (testResultHrefParams a) = true ↔
      ∃ f q, a.filter = some f ∧ getParam f "q" = some q ∧ q ≠ "") := by
  constructor
  · intro f q hf hq hne
    rw [testResultHrefParams]
    simp [addQ, hf, hq, hne, getParam_setParam_self]
  · rw [testResultHrefParams]
    have hpush : containsKey "q" (addAnchor a (addRun a (addTestId a []))) = false := by
      rw [(addAnchor_other a _ (by decide)).1, (addRun_other a _ (by decide)).1,
        (addTestId_other a _ (by decide)).1]
      rfl
    cases hf : a.filter with
    | none =>
      rw [show addQ a (addAnchor a (addRun a (addTestId a []))) =
        addAnchor a (addRun a (addTestId a [])) by simp [addQ, hf]]
      simp [hpush, hf]
    | some f =>
      cases hq : getParam f "q" with
      | none =>
        rw [show addQ a (addAnchor a (addRun a (addTestId a []))) =
          addAnchor a (addRun a (addTestId a [])) by simp [addQ, hf, hq]]
        simp [hpush, hf, hq]
      | some q =>
        by_cases he : q = ""
        · rw [show addQ a (addAnchor a (addRun a (addTestId a []))) =
            addAnchor a (addRun a (addTestId a [])) by simp [addQ, hf, hq, he]]
          simp [hpush, hf, hq, he]
        · simp [addQ, hf, hq, he, containsKey_setParam_self]

theorem testResultHref_q_carry_witness :
    getParam (testResultHrefParams
      ⟨Option.none, Option.none, Option.none, some [("q", "foo")]⟩) "q" = some "foo" :=
  (testResultHref_q_carry ⟨Option.none, Option.none, Option.none, some [("q", "foo")]⟩).1
    [("q", "foo")] "foo" rfl rfl (by decide)

/-- C6: when the given result is not a member of the results of the test
under reference comparison, the index lookup yields the sentinel minus one
and testResultHref still produces a fragment (it is a total function),
whose run parameter carries the sentinel. -/
theorem testResultHref_run_sentinel (t : TestCase) (r : TestResult)
    (an : Option String) (f : Option Params)
    (h : ∀ x ∈ t.results, x.ident ≠ r.ident) :
    jsIndexOf t.results r = -1 ∧
    getParam (testResultHrefParams ⟨some t, some r, an, f⟩) "run" = some "-1" := by
  have hidx : jsIndexOf t.results r = -1 := jsIndexOfAux_neg r t.results 0 h
  refine ⟨hidx, ?_⟩
  rw [testResultHrefParams, (addQ_other _ _ (by decide)).2, (addAnchor_other _ _ (by decide)).2]
  simp [addRun, getParam_setParam_self, hidx]
  decide

theorem testResultHref_run_sentinel_witness :
    getParam (testResultHrefParams
      ⟨some ⟨"T1", [⟨0⟩]⟩, some ⟨5⟩, Option.none, Option.none⟩) "run" = some "-1" :=
  (testResultHref_run_sentinel ⟨"T1", [⟨0⟩]⟩ ⟨5⟩ Option.none Option.none (by decide)).2

theorem data_append (s t : String) : (s ++ t).data = s.data ++ t.data := rfl

theorem afterMarkChars_append (m : Char) (pre rest : List Char) (h : m ∉ pre) :
    afterMarkChars m (pre ++ m :: rest) = rest := by
  induction pre with
  | nil => simp [afterMarkChars]
  | cons c p ih =>
    have hc : (c == m) = false := by
      simp
      exact fun e => h (List.mem_cons.mpr (Or.inl e.symm))
    simp [afterMarkChars, hc, ih (fun hx => h (List.mem_cons_of_mem _ hx))]

/-- C4: the query string of the generated trace URL consists of one
trace entry per attachment, in input order, joined by ampersands, each
carrying the attachment path resolved against the page location; at page
location https-x-report with paths a.zip and b.zip this yields the worked
example URL. -/
theorem generateTraceUrl_queries :
    (∀ (resolve : String → String) (traces : List Attachment),
      traces ≠ [] →
      (∀ a ∈ traces, '&' ∉ (resolve a.path).data) →
      splitOnChar '&' (afterQuery (generateTraceUrl resolve traces)) =
        traces.map (fun a => ("trace=" ++ resolve a.path).data)) ∧
    generateTraceUrl (fun p => "https://x/report/" ++ p) [⟨"a.zip"⟩, ⟨"b.zip"⟩] =
      "trace/index.html?trace=https://x/report/a.zip&trace=https://x/report/b.zip" := by
  constructor
  · intro resolve traces hne hamp
    rw [generateTraceUrl, afterQuery, data_append]
    rw [show ("trace/index.html?".data : List Char) = "trace/index.html".data ++ ['?'] by decide]
    rw [List.append_assoc, List.singleton_append]
    rw [afterMarkChars_append '?' _ _ (by decide)]
    show splitOnChar '&' (intercalateChar '&' (traces.map fun a => ("trace=" ++ resolve a.path).data)) = _
    apply splitOnChar_intercalate
    · simp [hne]
    · intro l hl
      rcases List.mem_map.mp hl with ⟨a, ha, rfl⟩
      rw [data_append]
      intro hmem
      rcases List.mem_append.mp hmem with hpre | hres
      · exact absurd hpre (by decide)
      · exact hamp a ha hres
  · decide

theorem generateTraceUrl_queries_witness :
    splitOnChar '&' (afterQuery (generateTraceUrl (fun p => "https://x/report/" ++ p)
      [⟨"a.zip"⟩, ⟨"b.zip"⟩])) =
      ([⟨"a.zip"⟩, ⟨"b.zip"⟩] : List Attachment).map
        (fun a => ("trace=" ++ ("https://x/report/" ++ a.path)).data) :=
  generateTraceUrl_queries.1 (fun p => "https://x/report/" ++ p) [⟨"a.zip"⟩, ⟨"b.zip"⟩]
    (by simp) (by decide)

end Links
